import Mathlib

/-!
Verification of two cores of the meilisearch `milli` crate:

* the ranking-rule graph edge operations of
  `src/milli/src/search/new/ranking_rule_graph/mod.rs`
  (the `Edge` record, its `Hash`/`PartialEq` implementations, and
  `RankingRuleGraph::remove_edges_with_condition`), and
* the words-prefixes builder of `src/milli/src/update/words_prefixes.rs`
  (`WordsPrefixes::execute`).

The embedding represents interner handles (`Interned<T>`, dense integer
indices) as `Nat`, the fixed-capacity edge table (`FixedSizeInterner`) as a
`List (Option Edge)` indexed by edge handle (a tombstoned slot is `none`),
and a node's outgoing `SmallBitmap` as a `Finset Nat` of edge handles.
Byte strings are `List Nat` (each entry one byte), document-id bitmaps
(`RoaringBitmap`) are `Finset Nat`.
-/

namespace MeiliVerif

/-! ## Part 1: the ranking rule graph

`Edge<E>` from `ranking_rule_graph/mod.rs`:
a record of source node handle, destination node handle, `u8` cost and an
optional condition handle (`None` denotes a free edge).  The cost is only
ever compared and hashed by the code modelled here, so it is embedded as a
plain `Nat`. -/

structure Edge where
  source_node : Nat
  dest_node : Nat
  cost : Nat
  condition : Option Nat
deriving DecidableEq

/-- The `PartialEq for Edge` implementation: field-by-field comparison of
`source_node`, `dest_node`, `cost` and `condition`. -/
def edgeEq (e1 e2 : Edge) : Bool :=
  decide (e1.source_node = e2.source_node)
    && decide (e1.dest_node = e2.dest_node)
    && decide (e1.cost = e2.cost)
    && decide (e1.condition = e2.condition)

/-- The `Hash for Edge` implementation: it feeds `source_node`, `dest_node`,
`cost` and `condition`, in that order, into the hasher state.  A hasher is
modelled abstractly as a state type `σ` together with one state-update
function per field type (node handles, the `u8` cost, the optional
condition handle), exactly the shape of the four `hash(state)` calls in the
source. -/
def hashEdge {σ : Type} (hNode : σ → Nat → σ) (hCost : σ → Nat → σ)
    (hCond : σ → Option Nat → σ) (st : σ) (e : Edge) : σ :=
  hCond (hCost (hNode (hNode st e.source_node) e.dest_node) e.cost) e.condition

/-- `RankingRuleGraph<G>`, restricted to the fields read or written by
`remove_edges_with_condition`: the edge table (`edges_store`) and the
per-node index of outgoing edges (`edges_of_node`).  The borrowed query
graph and the condition interner are untouched by that operation and are
omitted. -/
structure RankingRuleGraph where
  edges_store : List (Option Edge)
  edges_of_node : Nat → Finset Nat

/-- Whether the edge slot `k` of `g` currently holds a live edge whose
condition is `some c` (the removal criterion of
`remove_edges_with_condition`). -/
def removableAt (g : RankingRuleGraph) (c k : Nat) : Bool :=
  match g.edges_store.getD k none with
  | some e => e.condition == some c
  | none => false

/-- The source node recorded in edge slot `k` of `g`, if the slot is live. -/
def sourceAt (g : RankingRuleGraph) (k : Nat) : Option Nat :=
  (g.edges_store.getD k none).map Edge.source_node

/-- The removal action on one matching edge: `*edge_opt = None` (tombstone
slot `eid`) and `self.edges_of_node.get_mut(source_node).remove(edge_id)`
(clear bit `eid` in the source node's outgoing bitmap). -/
def eraseEdge (g : RankingRuleGraph) (eid : Nat) (e : Edge) : RankingRuleGraph :=
  { edges_store := g.edges_store.set eid none,
    edges_of_node := fun m =>
      if m = e.source_node then (g.edges_of_node m).erase eid
      else g.edges_of_node m }

/-- One iteration of the `remove_edges_with_condition` loop, at edge id
`eid`: if the slot holds a live edge whose condition is a handle equal to
`c`, tombstone it and clear its source's bit; otherwise (`let ... else
continue`, or condition mismatch) leave the graph unchanged.  A tombstoned
or free (`condition == None`) edge never satisfies
`e.condition = some c`. -/
def removeOneEdge (c : Nat) (g : RankingRuleGraph) (eid : Nat) : RankingRuleGraph :=
  match g.edges_store.getD eid none with
  | none => g
  | some e => if e.condition = some c then eraseEdge g eid e else g

/-- `RankingRuleGraph::remove_edges_with_condition`: iterate over every
edge id of the edge table and apply the loop body. -/
def remove_edges_with_condition (g : RankingRuleGraph) (c : Nat) : RankingRuleGraph :=
  (List.range g.edges_store.length).foldl (removeOneEdge c) g

lemma set_getD_self {α : Type} (a d : α) :
    ∀ (l : List α) (i : Nat), i < l.length → (l.set i a).getD i d = a
  | _ :: _, 0, _ => rfl
  | _ :: xs, i + 1, h => set_getD_self a d xs i (Nat.lt_of_succ_lt_succ h)
  | [], i, h => absurd h (Nat.not_lt_zero i)

lemma set_getD_other {α : Type} (a d : α) :
    ∀ (l : List α) (i j : Nat), i ≠ j → (l.set i a).getD j d = l.getD j d
  | [], _, _, _ => by simp
  | _ :: _, 0, 0, h => absurd rfl h
  | _ :: _, 0, _ + 1, _ => rfl
  | _ :: _, _ + 1, 0, _ => rfl
  | _ :: xs, i + 1, j + 1, h =>
    set_getD_other a d xs i j (fun hij => h (congrArg Nat.succ hij))

lemma getD_lt_length {l : List (Option Edge)} {k : Nat} {e : Edge}
    (h : l.getD k none = some e) : k < l.length := by
  by_contra hk
  rw [List.getD_eq_default l none (Nat.le_of_not_lt hk)] at h
  exact Option.noConfusion h

lemma removableAt_of_none {g : RankingRuleGraph} {k : Nat} (c : Nat)
    (hslot : g.edges_store.getD k none = none) : removableAt g c k = false := by
  unfold removableAt
  rw [hslot]

lemma removableAt_of_some {g : RankingRuleGraph} {k : Nat} {e : Edge} (c : Nat)
    (hslot : g.edges_store.getD k none = some e) :
    removableAt g c k = (e.condition == some c) := by
  unfold removableAt
  rw [hslot]

lemma sourceAt_of_some {g : RankingRuleGraph} {k : Nat} {e : Edge}
    (hslot : g.edges_store.getD k none = some e) :
    sourceAt g k = some e.source_node := by
  unfold sourceAt
  rw [hslot]
  rfl

/-- Effect of one loop iteration on the edge table, slot by slot. -/
lemma removeOneEdge_getD (c : Nat) (g : RankingRuleGraph) (eid k : Nat) :
    (removeOneEdge c g eid).edges_store.getD k none =
      if k = eid ∧ removableAt g c k = true then none
      else g.edges_store.getD k none := by
  unfold removeOneEdge
  cases hslot : g.edges_store.getD eid none with
  | none =>
    show g.edges_store.getD k none = _
    rw [if_neg]
    rintro ⟨rfl, hr⟩
    rw [removableAt_of_none c hslot] at hr
    exact Bool.noConfusion hr
  | some e =>
    show (if e.condition = some c then eraseEdge g eid e else g).edges_store.getD
        k none = _
    by_cases hec : e.condition = some c
    · rw [if_pos hec]
      show (g.edges_store.set eid none).getD k none = _
      by_cases hk : k = eid
      · subst hk
        rw [set_getD_self _ _ _ _ (getD_lt_length hslot),
          if_pos ⟨rfl, by rw [removableAt_of_some c hslot, hec]; simp⟩]
      · rw [set_getD_other _ _ _ _ _ (fun h => hk h.symm),
          if_neg (fun h => hk h.1)]
    · rw [if_neg hec, if_neg]
      rintro ⟨rfl, hr⟩
      rw [removableAt_of_some c hslot] at hr
      exact hec (by simpa using hr)

/-- Effect of one loop iteration on the per-node outgoing bitmaps. -/
lemma removeOneEdge_eon (c : Nat) (g : RankingRuleGraph) (eid m k : Nat) :
    k ∈ (removeOneEdge c g eid).edges_of_node m ↔
      (k ∈ g.edges_of_node m ∧
        ¬(k = eid ∧ removableAt g c k = true ∧ sourceAt g k = some m)) := by
  unfold removeOneEdge
  cases hslot : g.edges_store.getD eid none with
  | none =>
    show k ∈ g.edges_of_node m ↔ _
    refine ⟨fun h => ⟨h, ?_⟩, fun h => h.1⟩
    rintro ⟨rfl, hr, -⟩
    rw [removableAt_of_none c hslot] at hr
    exact Bool.noConfusion hr
  | some e =>
    show k ∈ (if e.condition = some c then eraseEdge g eid e
        else g).edges_of_node m ↔ _
    by_cases hec : e.condition = some c
    · rw [if_pos hec]
      show k ∈ (if m = e.source_node then (g.edges_of_node m).erase eid
          else g.edges_of_node m) ↔ _
      by_cases hm : m = e.source_node
      · subst hm
        rw [if_pos rfl, Finset.mem_erase]
        constructor
        · rintro ⟨hne, hmem⟩
          refine ⟨hmem, ?_⟩
          rintro ⟨rfl, -, -⟩
          exact hne rfl
        · rintro ⟨hmem, hnot⟩
          refine ⟨?_, hmem⟩
          rintro rfl
          exact hnot ⟨rfl, by rw [removableAt_of_some c hslot, hec]; simp,
            sourceAt_of_some hslot⟩
      · rw [if_neg hm]
        refine ⟨fun h => ⟨h, ?_⟩, fun h => h.1⟩
        rintro ⟨rfl, -, hsrc⟩
        rw [sourceAt_of_some hslot] at hsrc
        exact hm (Option.some.inj hsrc).symm
    · rw [if_neg hec]
      refine ⟨fun h => ⟨h, ?_⟩, fun h => h.1⟩
      rintro ⟨rfl, hr, -⟩
      rw [removableAt_of_some c hslot] at hr
      exact hec (by simpa using hr)

/-- `removableAt` and `sourceAt` only read the edge table. -/
lemma removableAt_congr (g g' : RankingRuleGraph) (c k : Nat)
    (h : g'.edges_store.getD k none = g.edges_store.getD k none) :
    removableAt g' c k = removableAt g c k := by
  unfold removableAt
  rw [h]

lemma sourceAt_congr (g g' : RankingRuleGraph) (k : Nat)
    (h : g'.edges_store.getD k none = g.edges_store.getD k none) :
    sourceAt g' k = sourceAt g k := by
  unfold sourceAt
  rw [h]

/-- Cumulative effect of the removal loop over any list of edge ids,
expressed against the starting graph. -/
lemma foldl_removeOneEdge_spec (c : Nat) :
    ∀ (ids : List Nat) (g : RankingRuleGraph),
      (∀ k, (ids.foldl (removeOneEdge c) g).edges_store.getD k none =
          if k ∈ ids ∧ removableAt g c k = true then none
          else g.edges_store.getD k none)
      ∧ (∀ m k, k ∈ (ids.foldl (removeOneEdge c) g).edges_of_node m ↔
          (k ∈ g.edges_of_node m ∧
            ¬(k ∈ ids ∧ removableAt g c k = true ∧ sourceAt g k = some m)))
  | [], g => by simp
  | eid :: ids, g => by
    have IH := foldl_removeOneEdge_spec c ids (removeOneEdge c g eid)
    have hslot := removeOneEdge_getD c g eid
    have hrem : ∀ k, removableAt (removeOneEdge c g eid) c k =
        if k = eid ∧ removableAt g c k = true then false else removableAt g c k := by
      intro k
      by_cases hk : k = eid ∧ removableAt g c k = true
      · rw [if_pos hk]
        exact removableAt_of_none c (by rw [hslot k, if_pos hk])
      · rw [if_neg hk]
        exact removableAt_congr g (removeOneEdge c g eid) c k
          (by rw [hslot k, if_neg hk])
    have hsrc : ∀ k, ¬(k = eid ∧ removableAt g c k = true) →
        sourceAt (removeOneEdge c g eid) k = sourceAt g k := by
      intro k hk
      exact sourceAt_congr g (removeOneEdge c g eid) k (by rw [hslot k, if_neg hk])
    constructor
    · intro k
      rw [List.foldl_cons, IH.1 k]
      by_cases hke : k = eid ∧ removableAt g c k = true
      · by_cases hkin : k ∈ ids ∧ removableAt (removeOneEdge c g eid) c k = true
        · rw [if_pos hkin, if_pos ⟨List.mem_cons.mpr (Or.inl hke.1), hke.2⟩]
        · rw [if_neg hkin, hslot k, if_pos hke,
            if_pos ⟨List.mem_cons.mpr (Or.inl hke.1), hke.2⟩]
      · have hrk : removableAt (removeOneEdge c g eid) c k = removableAt g c k := by
          rw [hrem k, if_neg hke]
        have hgk : (removeOneEdge c g eid).edges_store.getD k none =
            g.edges_store.getD k none := by
          rw [hslot k, if_neg hke]
        rw [hrk, hgk]
        by_cases hkin : k ∈ ids ∧ removableAt g c k = true
        · rw [if_pos hkin, if_pos ⟨List.mem_cons.mpr (Or.inr hkin.1), hkin.2⟩]
        · rw [if_neg hkin, if_neg ?_]
          rintro ⟨hmem, hr⟩
          rcases List.mem_cons.mp hmem with h | h
          · exact hke ⟨h, hr⟩
          · exact hkin ⟨h, hr⟩
    · intro m k
      rw [List.foldl_cons, IH.2 m k, removeOneEdge_eon c g eid m k]
      by_cases hke : k = eid ∧ removableAt g c k = true
      · have hr1 : removableAt (removeOneEdge c g eid) c k = false := by
          rw [hrem k, if_pos hke]
        constructor
        · rintro ⟨⟨hmem, hnot⟩, -⟩
          refine ⟨hmem, ?_⟩
          rintro ⟨-, -, hsm⟩
          exact hnot ⟨hke.1, hke.2, hsm⟩
        · rintro ⟨hmem, hnot⟩
          refine ⟨⟨hmem, ?_⟩, ?_⟩
          · rintro ⟨-, -, hsm⟩
            exact hnot ⟨List.mem_cons.mpr (Or.inl hke.1), hke.2, hsm⟩
          · rintro ⟨-, hr1', -⟩
            rw [hr1] at hr1'
            exact Bool.false_ne_true hr1'
      · have hrk : removableAt (removeOneEdge c g eid) c k = removableAt g c k := by
          rw [hrem k, if_neg hke]
        have hsk := hsrc k hke
        constructor
        · rintro ⟨⟨hmem, -⟩, hnot⟩
          refine ⟨hmem, ?_⟩
          rintro ⟨hin, hr, hsm⟩
          rcases List.mem_cons.mp hin with h | h
          · exact hke ⟨h, hr⟩
          · exact hnot ⟨h, by rw [hrk]; exact hr, by rw [hsk]; exact hsm⟩
        · rintro ⟨hmem, hnot⟩
          refine ⟨⟨hmem, ?_⟩, ?_⟩
          · rintro ⟨hkeq, hr, hsm⟩
            exact hke ⟨hkeq, hr⟩
          · rintro ⟨hin, hr, hsm⟩
            rw [hrk] at hr
            rw [hsk] at hsm
            exact hnot ⟨List.mem_cons_of_mem _ hin, hr, hsm⟩

/-- C1.  After `remove_edges_with_condition(c)`:
1. no live (non-tombstoned) slot of the edge table holds an edge whose
   condition equals `c`;
2. for every query node `m` and edge id `k`, bit `k` of `edges_of_node m`
   is set afterwards iff it was set before and `k` is not a removed edge
   (live with condition `c`) whose source node is `m` — bits for all other
   edges are unchanged. -/
theorem remove_edges_with_condition_spec (g : RankingRuleGraph) (c : Nat) :
    (∀ k e, (remove_edges_with_condition g c).edges_store.getD k none = some e →
      e.condition ≠ some c)
    ∧ (∀ m k, k ∈ (remove_edges_with_condition g c).edges_of_node m ↔
        (k ∈ g.edges_of_node m ∧
          ¬(removableAt g c k = true ∧ sourceAt g k = some m))) := by
  have H := foldl_removeOneEdge_spec c (List.range g.edges_store.length) g
  unfold remove_edges_with_condition
  constructor
  · intro k e hk
    rw [H.1 k] at hk
    by_cases hke : k ∈ List.range g.edges_store.length ∧ removableAt g c k = true
    · rw [if_pos hke] at hk
      exact Option.noConfusion hk
    · rw [if_neg hke] at hk
      intro hcond
      exact hke ⟨List.mem_range.mpr (getD_lt_length hk),
        by rw [removableAt_of_some c hk, hcond]; simp⟩
  · intro m k
    rw [H.2 m k]
    constructor
    · rintro ⟨hmem, hnot⟩
      refine ⟨hmem, ?_⟩
      rintro ⟨hr, hsm⟩
      have hklt : k < g.edges_store.length := by
        unfold removableAt at hr
        cases hslot : g.edges_store.getD k none with
        | none => rw [hslot] at hr; exact Bool.noConfusion hr
        | some e => exact getD_lt_length hslot
      exact hnot ⟨List.mem_range.mpr hklt, hr, hsm⟩
    · rintro ⟨hmem, hnot⟩
      exact ⟨hmem, fun ⟨_, hr, hsm⟩ => hnot ⟨hr, hsm⟩⟩

/-- Witness for C1: the theorem evaluated on a concrete two-edge graph in
which edge 0 has condition 5 (source node 0) and edge 1 has condition 6. -/
theorem remove_edges_with_condition_spec_witness :
    (∀ k e,
      (remove_edges_with_condition
        ⟨[some ⟨0, 1, 2, some 5⟩, some ⟨0, 1, 3, some 6⟩],
         fun m => if m = 0 then {0, 1} else ∅⟩ 5).edges_store.getD k none = some e →
      e.condition ≠ some 5)
    ∧ (∀ m k, k ∈ (remove_edges_with_condition
        ⟨[some ⟨0, 1, 2, some 5⟩, some ⟨0, 1, 3, some 6⟩],
         fun m => if m = 0 then {0, 1} else ∅⟩ 5).edges_of_node m ↔
        (k ∈ (⟨[some ⟨0, 1, 2, some 5⟩, some ⟨0, 1, 3, some 6⟩],
           fun m => if m = 0 then {0, 1} else ∅⟩ : RankingRuleGraph).edges_of_node m ∧
          ¬(removableAt ⟨[some ⟨0, 1, 2, some 5⟩, some ⟨0, 1, 3, some 6⟩],
              fun m => if m = 0 then {0, 1} else ∅⟩ 5 k = true ∧
            sourceAt ⟨[some ⟨0, 1, 2, some 5⟩, some ⟨0, 1, 3, some 6⟩],
              fun m => if m = 0 then {0, 1} else ∅⟩ k = some m))) :=
  remove_edges_with_condition_spec
    ⟨[some ⟨0, 1, 2, some 5⟩, some ⟨0, 1, 3, some 6⟩],
     fun m => if m = 0 then {0, 1} else ∅⟩ 5

/-- C8.  The `PartialEq` comparison of two edges succeeds iff the two
records are structurally equal, i.e. iff all four fields (`source_node`,
`dest_node`, `cost`, optional `condition`) agree. -/
theorem edge_eq_iff_fields (e1 e2 : Edge) :
    (edgeEq e1 e2 = true ↔ e1 = e2)
    ∧ (edgeEq e1 e2 = true ↔
        (e1.source_node = e2.source_node ∧ e1.dest_node = e2.dest_node ∧
          e1.cost = e2.cost ∧ e1.condition = e2.condition)) := by
  obtain ⟨s1, d1, c1, o1⟩ := e1
  obtain ⟨s2, d2, c2, o2⟩ := e2
  constructor
  · simp only [edgeEq, Bool.and_eq_true, decide_eq_true_eq, Edge.mk.injEq]
    tauto
  · simp only [edgeEq, Bool.and_eq_true, decide_eq_true_eq]
    tauto

/-- C9.  The `Hash` implementation feeds exactly the four fields compared
by `PartialEq`, so `PartialEq`-equal edges hash identically under every
hasher (any state type `σ`, any per-field state-update functions, any
starting state). -/
theorem edge_eq_hash_congr {σ : Type} (hNode : σ → Nat → σ) (hCost : σ → Nat → σ)
    (hCond : σ → Option Nat → σ) (st : σ) (e1 e2 : Edge)
    (h : edgeEq e1 e2 = true) :
    hashEdge hNode hCost hCond st e1 = hashEdge hNode hCost hCond st e2 := by
  obtain ⟨s1, d1, c1, o1⟩ := e1
  obtain ⟨s2, d2, c2, o2⟩ := e2
  simp only [edgeEq, Bool.and_eq_true, decide_eq_true_eq] at h
  obtain ⟨⟨⟨hs, hd⟩, hc⟩, ho⟩ := h
  subst hs hd hc ho
  rfl

/-- Witness for C9 at a concrete hasher (a 31-ary polynomial hash) and a
concrete pair of equal edges. -/
theorem edge_eq_hash_congr_witness :
    hashEdge (fun s n => 31 * s + n) (fun s n => 31 * s + n)
        (fun s o => 31 * s + (Option.getD o 99)) 7 ⟨1, 2, 3, some 4⟩
      = hashEdge (fun s n => 31 * s + n) (fun s n => 31 * s + n)
        (fun s o => 31 * s + (Option.getD o 99)) 7 ⟨1, 2, 3, some 4⟩ :=
  edge_eq_hash_congr _ _ _ 7 ⟨1, 2, 3, some 4⟩ ⟨1, 2, 3, some 4⟩ (by decide)

/-! ## Part 2: the words-prefixes builder

`WordsPrefixes::execute` from `src/milli/src/update/words_prefixes.rs`.
A byte string (an FST key, a word, a prefix) is a `List Nat` of byte
values.  The `words_fst` streams its keys in strictly increasing
byte-lexicographic order; the sortedness enters the theorems as a
`Pairwise bytesLt` hypothesis.  The `f64` threshold is embedded as an
exact rational (`ℚ`); `(number_of_words as f64 * threshold) as usize` is
truncation of a non-negative product, i.e. `Int.toNat` of the floor. -/

/-- A byte string: the bytes of an FST key / word / prefix. -/
abbrev ByteStr := List Nat

/-- Strict byte-lexicographic order on byte strings (the order of FST
keys). -/
def bytesLt : ByteStr → ByteStr → Bool
  | _, [] => false
  | [], _ :: _ => true
  | a :: as, b :: bs => if a < b then true else if a = b then bytesLt as bs else false

/-- Non-strict byte-lexicographic order on byte strings. -/
def bytesLe : ByteStr → ByteStr → Bool
  | [], _ => true
  | _ :: _, [] => false
  | a :: as, b :: bs => if a < b then true else if a = b then bytesLe as bs else false

/-- `w` starts, byte-wise, with `p` (the criterion of the store's
`prefix_iter`). -/
def bytesPrefix (p w : ByteStr) : Bool := decide (w.take p.length = p)

/-- A UTF-8 continuation byte (`0x80..=0xBF`). -/
def isCont (b : Nat) : Bool := 0x80 ≤ b && b < 0xC0

/-- Rust `str::is_char_boundary(n)`: true at 0 and at the end of the
string; inside the string, true iff the byte at `n` is not a continuation
byte; false past the end. -/
def isCharBoundary (w : ByteStr) (n : Nat) : Bool :=
  if n = 0 then true
  else
    match w.get? n with
    | none => n == w.length
    | some b => !(isCont b)

/-- Rust `word.get(..n)`: the first `n` bytes of `word`, but only if `n`
is a valid character boundary (in particular `n ≤ word.len()`). -/
def getPrefix (w : ByteStr) (n : Nat) : Option ByteStr :=
  if isCharBoundary w n then some (w.take n) else none

/-- Validity of a byte sequence as UTF-8, as checked by
`str::from_utf8`: ASCII, 2-byte leads `0xC2..=0xDF`, 3-byte leads
`0xE0..=0xEF` (with the restricted second-byte ranges of `0xE0` and
`0xED` that exclude overlong forms and surrogates), 4-byte leads
`0xF0..=0xF4` (with the restricted second-byte ranges of `0xF0` and
`0xF4` that exclude overlong forms and values above `U+10FFFF`). -/
def secondByteLo (b : Nat) : Nat :=
  if b = 0xE0 then 0xA0 else if b = 0xF0 then 0x90 else 0x80

def secondByteHi (b : Nat) : Nat :=
  if b = 0xED then 0xA0 else if b = 0xF4 then 0x90 else 0xC0

def utf8Valid : List Nat → Bool
  | [] => true
  | b :: rest =>
    if b < 0x80 then utf8Valid rest
    else if 0xC2 ≤ b && b < 0xE0 then
      match rest with
      | c1 :: rest1 => isCont c1 && utf8Valid rest1
      | [] => false
    else if 0xE0 ≤ b && b < 0xF0 then
      match rest with
      | c1 :: c2 :: rest2 =>
        (secondByteLo b ≤ c1 && c1 < secondByteHi b) && isCont c2 && utf8Valid rest2
      | _ => false
    else if 0xF0 ≤ b && b < 0xF5 then
      match rest with
      | c1 :: c2 :: c3 :: rest3 =>
        (secondByteLo b ≤ c1 && c1 < secondByteHi b) && isCont c2 && isCont c3
          && utf8Valid rest3
      | _ => false
    else false

/-- `(number_of_words as f64 * self.threshold) as usize`: the threshold is
non-negative, so the cast truncates to the floor of the product. -/
def minWordsCount (numWords : Nat) (r : ℚ) : Nat :=
  ((numWords : ℚ) * r).floor.toNat

/-- The `threshold` setter: `value.min(1.0).max(0.0)` (clamp to `[0, 1]`). -/
def clampThreshold (value : ℚ) : ℚ := max (min value 1) 0

/-- The `max_prefix_length` setter: `value.min(25).max(1)` (clamp to
`[1, 25]`). -/
def clampMaxPrefixLength (value : Nat) : Nat := max (min value 25) 1

/-- The run-tracking scan of the word stream for one prefix length `n`,
operating on the already-extracted prefixes.  State: the current prefix
(`current_prefix`), its run count (`current_prefix_count`), and the keys
inserted into the `fst::SetBuilder` so far (in reverse insertion order).
A new run starts when the count is 0 (first iteration) or the prefix
changed; the count is then incremented, and the prefix is inserted
exactly when the count reaches `minCount`.  (`fst::SetBuilder::insert`
also errors on out-of-order keys; the `words_fst` stream yields keys in
strictly increasing order, under which the inserts are strictly
increasing, so that error path is unreachable — the theorems carry the
sortedness as the `Pairwise bytesLt` hypothesis.) -/
def scanPrefixes (minCount : Nat) : List ByteStr → ByteStr → Nat → List ByteStr → List ByteStr
  | [], _, _, builder => builder.reverse
  | p :: ps, cur, cnt, builder =>
    if cnt = 0 ∨ p ≠ cur then
      scanPrefixes minCount ps p 1 (if 1 = minCount then p :: builder else builder)
    else
      scanPrefixes minCount ps cur (cnt + 1)
        (if cnt + 1 = minCount then p :: builder else builder)

/-- The `while let Some(bytes) = stream.next()` loop for one prefix
length `n`: each word contributes `word.get(..n)` when that is a valid
character-boundary slice and is skipped otherwise (`None => continue`),
with the same run-tracking state as `scanPrefixes`. -/
def scanWords (n minCount : Nat) : List ByteStr → ByteStr → Nat → List ByteStr → List ByteStr
  | [], _, _, builder => builder.reverse
  | w :: ws, cur, cnt, builder =>
    match getPrefix w n with
    | none => scanWords n minCount ws cur cnt builder
    | some p =>
      if cnt = 0 ∨ p ≠ cur then
        scanWords n minCount ws p 1 (if 1 = minCount then p :: builder else builder)
      else
        scanWords n minCount ws cur (cnt + 1)
          (if cnt + 1 = minCount then p :: builder else builder)

/-- The keys of the prefix set built for one length `n` (the loop body of
`for n in 1..=self.max_prefix_length`), starting from the empty
`current_prefix` and zero count. -/
def prefixesOfLen (words : List ByteStr) (minCount n : Nat) : List ByteStr :=
  scanWords n minCount words [] 0 []

/-- The final prefix FST: the union of the per-length prefix sets
(`OpBuilder::union` over the `prefix_fsts` vector).  An FST represents a
set of keys; the union is embedded as the concatenation of the per-length
key lists with duplicates removed (across different lengths the lists are
disjoint, so `dedup` is the set union). -/
def prefixFstOf (words : List ByteStr) (minCount L : Nat) : List ByteStr :=
  (((List.range L).map (fun i => prefixesOfLen words minCount (i + 1))).flatten).dedup

/-- The union of the docids of every `word_docids` entry whose key starts
with `p`: the merged value the external sorter (with the
`word_docids_merge` union function) produces for key `p` from the
`db.prefix_iter(..)` inserts. -/
def docidsForPrefix (wordDocids : List (ByteStr × Finset Nat)) (p : ByteStr) : Finset Nat :=
  ((wordDocids.filter (fun e => bytesPrefix p e.1)).map Prod.snd).foldr (· ∪ ·) ∅

/-- The `word_prefix_docids` rows written by the final
`write_into_lmdb_database(.., WriteMethod::Append)`: one row per prefix
of the final FST that matched at least one `word_docids` entry, carrying
the merged (unioned) docids. -/
def wordPrefixDocidsOf (wordDocids : List (ByteStr × Finset Nat)) (pfst : List ByteStr) :
    List (ByteStr × Finset Nat) :=
  (pfst.filter (fun p => wordDocids.any (fun e => bytesPrefix p e.1))).map
    (fun p => (p, docidsForPrefix wordDocids p))

/-- The index state visible to `WordsPrefixes::execute`: the sorted words
FST, the `word_docids` table (sorted by key), and the two datastructures
the builder writes, `word_prefix_docids` and the `words_prefixes_fst`
slot. -/
structure IndexState where
  wordsFst : List ByteStr
  wordDocids : List (ByteStr × Finset Nat)
  wordPrefixDocids : List (ByteStr × Finset Nat)
  wordsPrefixesFst : List ByteStr
deriving DecidableEq

/-- `WordsPrefixes::execute`, with `r` the threshold and `L` the maximum
prefix length (both already clamped by their setters).  Steps, in source
order: clear `word_prefix_docids`; compute `min_number_of_words`; build
the per-length prefix sets (any non-UTF-8 word aborts with an error from
`str::from_utf8` — the check is hoisted out of the loops, which scan
every word whenever `L ≥ 1`); union them into the final prefix FST;
stream the final FST (each prefix is re-checked by `str::from_utf8`),
collecting the matching `word_docids` rows through the unioning sorter;
store the prefix FST; append the merged rows into the cleared
`word_prefix_docids` table. -/
def executeCore (minCount L : Nat) (s : IndexState) : Except Unit IndexState :=
  let cleared : List (ByteStr × Finset Nat) := []
  let pfst := prefixFstOf s.wordsFst minCount L
  if (L == 0 || s.wordsFst.all utf8Valid) && pfst.all utf8Valid then
    Except.ok
      { s with
        wordPrefixDocids := cleared ++ wordPrefixDocidsOf s.wordDocids pfst,
        wordsPrefixesFst := pfst }
  else
    Except.error ()

def execute (r : ℚ) (L : Nat) (s : IndexState) : Except Unit IndexState :=
  executeCore (minWordsCount s.wordsFst.length r) L s

/-- The number of words of `words` whose first `n` bytes are exactly `p`
taken at a valid character boundary — the words counted toward prefix `p`
at length `n`. -/
def numWordsWithPrefix (words : List ByteStr) (n : Nat) (p : ByteStr) : Nat :=
  words.countP (fun w => isCharBoundary w n && decide (w.take n = p))

/-- Occurrence count of a byte string in a list. -/
def countOcc (p : ByteStr) : List ByteStr → Nat
  | [] => 0
  | q :: qs => (if q = p then 1 else 0) + countOcc p qs

/-! ### Order lemmas for byte strings -/

lemma bytesLe_refl : ∀ a : ByteStr, bytesLe a a = true
  | [] => rfl
  | a :: as => by
    unfold bytesLe
    rw [if_neg (lt_irrefl a), if_pos rfl]
    exact bytesLe_refl as

lemma bytesLe_antisymm : ∀ a b : ByteStr, bytesLe a b = true → bytesLe b a = true → a = b
  | [], [], _, _ => rfl
  | [], _ :: _, _, h2 => Bool.noConfusion h2
  | _ :: _, [], h1, _ => Bool.noConfusion h1
  | a :: as, b :: bs, h1, h2 => by
    unfold bytesLe at h1 h2
    by_cases hab : a < b
    · rw [if_neg (Nat.lt_asymm hab),
        if_neg (fun h => Nat.lt_irrefl a (by rw [h] at hab; exact hab))] at h2
      exact Bool.noConfusion h2
    · rw [if_neg hab] at h1
      by_cases heq : a = b
      · subst heq
        rw [if_pos rfl] at h1
        rw [if_neg hab, if_pos rfl] at h2
        rw [bytesLe_antisymm as bs h1 h2]
      · rw [if_neg heq] at h1
        exact Bool.noConfusion h1

lemma bytesLe_take : ∀ (n : Nat) (a b : ByteStr), bytesLt a b = true →
    bytesLe (a.take n) (b.take n) = true
  | 0, _, _, _ => rfl
  | _ + 1, [], _, _ => rfl
  | _ + 1, _ :: _, [], h => Bool.noConfusion h
  | n + 1, a :: as, b :: bs, h => by
    show bytesLe (a :: as.take n) (b :: bs.take n) = true
    unfold bytesLe
    unfold bytesLt at h
    by_cases hab : a < b
    · rw [if_pos hab]
    · rw [if_neg hab] at h ⊢
      by_cases heq : a = b
      · rw [if_pos heq] at h ⊢
        exact bytesLe_take n as bs h
      · rw [if_neg heq] at h
        exact Bool.noConfusion h

/-! ### Unfolding equations for the scans -/

lemma scanPrefixes_nil (minCount : Nat) (cur : ByteStr) (cnt : Nat)
    (builder : List ByteStr) :
    scanPrefixes minCount [] cur cnt builder = builder.reverse := rfl

lemma scanPrefixes_cons (minCount : Nat) (p : ByteStr) (ps : List ByteStr)
    (cur : ByteStr) (cnt : Nat) (builder : List ByteStr) :
    scanPrefixes minCount (p :: ps) cur cnt builder =
      if cnt = 0 ∨ p ≠ cur then
        scanPrefixes minCount ps p 1 (if 1 = minCount then p :: builder else builder)
      else
        scanPrefixes minCount ps cur (cnt + 1)
          (if cnt + 1 = minCount then p :: builder else builder) := rfl

lemma scanWords_cons_none {n : Nat} {w : ByteStr} (minCount : Nat) (ws : List ByteStr)
    (cur : ByteStr) (cnt : Nat) (builder : List ByteStr) (h : getPrefix w n = none) :
    scanWords n minCount (w :: ws) cur cnt builder =
      scanWords n minCount ws cur cnt builder := by
  simp only [scanWords, h]

lemma scanWords_cons_some {n : Nat} {w p : ByteStr} (minCount : Nat) (ws : List ByteStr)
    (cur : ByteStr) (cnt : Nat) (builder : List ByteStr) (h : getPrefix w n = some p) :
    scanWords n minCount (w :: ws) cur cnt builder =
      if cnt = 0 ∨ p ≠ cur then
        scanWords n minCount ws p 1 (if 1 = minCount then p :: builder else builder)
      else
        scanWords n minCount ws cur (cnt + 1)
          (if cnt + 1 = minCount then p :: builder else builder) := by
  simp only [scanWords, h]

/-- The word scan is the prefix scan of the extracted prefix stream: a
word skipped by the boundary check leaves the scan state untouched. -/
lemma scanWords_eq_scanPrefixes (n minCount : Nat) :
    ∀ (ws : List ByteStr) (cur : ByteStr) (cnt : Nat) (builder : List ByteStr),
      scanWords n minCount ws cur cnt builder
        = scanPrefixes minCount (ws.filterMap (fun w => getPrefix w n)) cur cnt builder
  | [], _, _, _ => rfl
  | w :: ws, cur, cnt, builder => by
    cases h : getPrefix w n with
    | none =>
      rw [scanWords_cons_none minCount ws cur cnt builder h, List.filterMap_cons]
      simp only [h]
      exact scanWords_eq_scanPrefixes n minCount ws cur cnt builder
    | some p =>
      rw [scanWords_cons_some minCount ws cur cnt builder h, List.filterMap_cons]
      simp only [h]
      rw [scanPrefixes_cons]
      by_cases hc : cnt = 0 ∨ p ≠ cur
      · rw [if_pos hc, if_pos hc, scanWords_eq_scanPrefixes n minCount ws]
      · rw [if_neg hc, if_neg hc, scanWords_eq_scanPrefixes n minCount ws]

/-! ### Character-boundary and prefix-extraction lemmas -/

lemma le_length_of_isCharBoundary {w : ByteStr} {n : Nat}
    (h : isCharBoundary w n = true) : n ≤ w.length := by
  unfold isCharBoundary at h
  by_cases h0 : n = 0
  · omega
  · rw [if_neg h0] at h
    cases hg : w.get? n with
    | none =>
      rw [hg] at h
      have : n = w.length := by simpa using h
      omega
    | some b =>
      obtain ⟨hlt, -⟩ := List.get?_eq_some.mp hg
      exact Nat.le_of_lt hlt

lemma getPrefix_eq_some {w p : ByteStr} {n : Nat} :
    getPrefix w n = some p ↔ (isCharBoundary w n = true ∧ w.take n = p) := by
  unfold getPrefix
  by_cases h : isCharBoundary w n = true
  · rw [if_pos h]
    simp [h]
  · rw [if_neg h]
    simp [h]

lemma getPrefix_length {w p : ByteStr} {n : Nat} (h : getPrefix w n = some p) :
    p.length = n := by
  obtain ⟨hb, hp⟩ := getPrefix_eq_some.mp h
  rw [← hp, List.length_take]
  exact Nat.min_eq_left (le_length_of_isCharBoundary hb)

lemma bytesPrefix_of_getPrefix {w p : ByteStr} {n : Nat}
    (h : getPrefix w n = some p) : bytesPrefix p w = true := by
  obtain ⟨hb, hp⟩ := getPrefix_eq_some.mp h
  unfold bytesPrefix
  rw [getPrefix_length h, hp]
  simp

/-- The valid prefix stream of a word list: the extracted prefixes, in
word order, of the words whose first `n` bytes sit at a character
boundary. -/
lemma filterMap_getPrefix_eq (n : Nat) :
    ∀ words : List ByteStr,
      words.filterMap (fun w => getPrefix w n)
        = (words.filter (fun w => isCharBoundary w n)).map (fun w => w.take n)
  | [] => rfl
  | w :: ws => by
    rw [List.filterMap_cons, List.filter_cons, filterMap_getPrefix_eq n ws]
    by_cases h : isCharBoundary w n = true
    · have hw : getPrefix w n = some (w.take n) := by
        unfold getPrefix
        rw [if_pos h]
      rw [hw, if_pos h]
      rfl
    · have hw : getPrefix w n = none := by
        unfold getPrefix
        rw [if_neg h]
      rw [hw, if_neg h]

/-! ### Counting lemmas -/

lemma countOcc_nil (p : ByteStr) : countOcc p [] = 0 := rfl

lemma countOcc_cons (p q : ByteStr) (qs : List ByteStr) :
    countOcc p (q :: qs) = (if q = p then 1 else 0) + countOcc p qs := rfl

lemma countOcc_eq_zero {p : ByteStr} :
    ∀ {ps : List ByteStr}, (∀ q ∈ ps, q ≠ p) → countOcc p ps = 0
  | [], _ => rfl
  | q :: qs, h => by
    rw [countOcc_cons, if_neg (h q (List.mem_cons_self q qs)),
      countOcc_eq_zero (fun r hr => h r (List.mem_cons_of_mem q hr))]

lemma countOcc_filterMap_getPrefix (n : Nat) (p : ByteStr) :
    ∀ words : List ByteStr,
      countOcc p (words.filterMap (fun w => getPrefix w n))
        = numWordsWithPrefix words n p
  | [] => rfl
  | w :: ws => by
    unfold numWordsWithPrefix
    rw [List.countP_cons]
    by_cases h : isCharBoundary w n = true
    · have hw : getPrefix w n = some (w.take n) := by
        unfold getPrefix
        rw [if_pos h]
      simp only [List.filterMap_cons, hw, countOcc_cons]
      rw [countOcc_filterMap_getPrefix n p ws]
      unfold numWordsWithPrefix
      by_cases hp : w.take n = p
      · simp only [if_pos hp, h, hp]
        simp
        omega
      · simp only [if_neg hp, h]
        simp [hp]
    · have hw : getPrefix w n = none := by
        unfold getPrefix
        rw [if_neg h]
      simp only [List.filterMap_cons, hw]
      rw [countOcc_filterMap_getPrefix n p ws]
      unfold numWordsWithPrefix
      simp [h]

/-! ### The run-tracking scan on a sorted prefix stream -/

/-- Main invariant of the scan from a mid-run state: the count is at
least 1, the stream is sorted, and every upcoming prefix is at least the
current one.  A prefix ends up in the output iff it was already inserted,
or it is the current run’s prefix and the run reaches `minCount` counting
its remaining occurrences, or it is a later prefix occurring at least
`minCount` times. -/
lemma scanPrefixes_mem_aux (minCount : Nat) :
    ∀ (ps : List ByteStr) (cur : ByteStr) (cnt : Nat) (builder : List ByteStr),
      1 ≤ cnt →
      ps.Pairwise (fun a b => bytesLe a b = true) →
      (∀ q ∈ ps, bytesLe cur q = true) →
      ∀ p, (p ∈ scanPrefixes minCount ps cur cnt builder ↔
        (p ∈ builder
          ∨ (p = cur ∧ cnt < minCount ∧ minCount ≤ cnt + countOcc p ps)
          ∨ (p ≠ cur ∧ 1 ≤ minCount ∧ minCount ≤ countOcc p ps)))
  | [], cur, cnt, builder, hcnt, _, _, p => by
    rw [scanPrefixes_nil, List.mem_reverse, countOcc_nil]
    constructor
    · exact fun h => Or.inl h
    · rintro (h | ⟨-, h1, h2⟩ | ⟨-, h1, h2⟩)
      · exact h
      · omega
      · omega
  | q :: ps, cur, cnt, builder, hcnt, hsort, hcur, p => by
    rw [List.pairwise_cons] at hsort
    obtain ⟨hq, hsort'⟩ := hsort
    have hcurq : bytesLe cur q = true := hcur q (List.mem_cons_self q ps)
    rw [scanPrefixes_cons, countOcc_cons]
    by_cases hqc : q = cur
    · subst hqc
      rw [if_neg (by push_neg; exact ⟨by omega, rfl⟩)]
      rw [scanPrefixes_mem_aux minCount ps q (cnt + 1) _ (by omega) hsort' hq p]
      by_cases hpq : p = q
      · subst hpq
        by_cases hm : cnt + 1 = minCount <;> by_cases hb : p ∈ builder <;>
            simp [hm, hb] <;> omega
      · have hqp : ¬ q = p := fun h => hpq h.symm
        by_cases hm : cnt + 1 = minCount <;> by_cases hb : p ∈ builder <;>
            simp [hm, hb, hpq, hqp]
    · rw [if_pos (Or.inr hqc)]
      rw [scanPrefixes_mem_aux minCount ps q 1 _ (le_refl 1) hsort' hq p]
      have hcps : countOcc cur ps = 0 :=
        countOcc_eq_zero (fun r hr hrc =>
          hqc ((bytesLe_antisymm q r (hq r hr)
            (by rw [hrc]; exact hcurq)).trans hrc))
      by_cases hpq : p = q
      · subst hpq
        have hpc : p ≠ cur := hqc
        by_cases hm : 1 = minCount <;> by_cases hb : p ∈ builder <;>
            simp [hm, hb, hpc] <;> omega
      · have hqp : ¬ q = p := fun h => hpq h.symm
        by_cases hpc : p = cur
        · subst hpc
          have hc0 : countOcc p ps = 0 := hcps
          by_cases hm : 1 = minCount <;> by_cases hb : p ∈ builder <;>
              simp [hm, hb, hpq, hqp, hc0] <;> omega
        · by_cases hm : 1 = minCount <;> by_cases hb : p ∈ builder <;>
              simp [hm, hb, hpq, hqp, hpc]

/-- Top-level characterization of one length's builder output on a
sorted prefix stream: a prefix is emitted iff the threshold is at least 1
and the prefix occurs at least `minCount` times. -/
lemma scanPrefixes_mem (minCount : Nat) (ps : List ByteStr)
    (hsort : ps.Pairwise (fun a b => bytesLe a b = true)) (p : ByteStr) :
    p ∈ scanPrefixes minCount ps [] 0 [] ↔
      (1 ≤ minCount ∧ minCount ≤ countOcc p ps) := by
  cases ps with
  | nil =>
    rw [scanPrefixes_nil, countOcc_nil]
    simp only [List.reverse_nil, List.not_mem_nil, false_iff]
    omega
  | cons q ps =>
    rw [List.pairwise_cons] at hsort
    obtain ⟨hq, hsort'⟩ := hsort
    rw [scanPrefixes_cons, if_pos (Or.inl rfl), countOcc_cons]
    rw [scanPrefixes_mem_aux minCount ps q 1 _ (le_refl 1) hsort' hq p]
    by_cases hpq : p = q
    · subst hpq
      by_cases hm : 1 = minCount <;> simp [hm] <;> omega
    · have hqp : ¬ q = p := fun h => hpq h.symm
      by_cases hm : 1 = minCount <;> simp [hm, hpq, hqp]

/-- Every emitted prefix is an element of the scanned stream (or was
already in the builder). -/
lemma scanPrefixes_sub (minCount : Nat) :
    ∀ (ps : List ByteStr) (cur : ByteStr) (cnt : Nat) (builder : List ByteStr)
      (p : ByteStr), p ∈ scanPrefixes minCount ps cur cnt builder →
        p ∈ builder ∨ p ∈ ps
  | [], _, _, builder, p, h => by
    rw [scanPrefixes_nil, List.mem_reverse] at h
    exact Or.inl h
  | q :: ps, cur, cnt, builder, p, h => by
    rw [scanPrefixes_cons] at h
    have hstep : ∀ (c2 : ByteStr) (n2 : Nat) (b2 : List ByteStr),
        (b2 = q :: builder ∨ b2 = builder) →
        p ∈ scanPrefixes minCount ps c2 n2 b2 → p ∈ builder ∨ p ∈ q :: ps := by
      intro c2 n2 b2 hb2 hmem
      rcases scanPrefixes_sub minCount ps c2 n2 b2 p hmem with hin | hin
      · rcases hb2 with rfl | rfl
        · rcases List.mem_cons.mp hin with h1 | h1
          · exact Or.inr (List.mem_cons.mpr (Or.inl h1))
          · exact Or.inl h1
        · exact Or.inl hin
      · exact Or.inr (List.mem_cons_of_mem q hin)
    by_cases hc : cnt = 0 ∨ q ≠ cur
    · rw [if_pos hc] at h
      refine hstep q 1 _ ?_ h
      by_cases hm : 1 = minCount
      · rw [if_pos hm]
        exact Or.inl rfl
      · rw [if_neg hm]
        exact Or.inr rfl
    · rw [if_neg hc] at h
      refine hstep cur (cnt + 1) _ ?_ h
      by_cases hm : cnt + 1 = minCount
      · rw [if_pos hm]
        exact Or.inl rfl
      · rw [if_neg hm]
        exact Or.inr rfl

/-- With `minCount = 0` the insertion check `current_prefix_count ==
min_number_of_words` never fires (the count is at least 1 when checked),
so the builder output is exactly its initial content. -/
lemma scanPrefixes_zero :
    ∀ (ps : List ByteStr) (cur : ByteStr) (cnt : Nat) (builder : List ByteStr),
      scanPrefixes 0 ps cur cnt builder = builder.reverse
  | [], _, _, _ => rfl
  | q :: ps, cur, cnt, builder => by
    rw [scanPrefixes_cons]
    by_cases hc : cnt = 0 ∨ q ≠ cur
    · rw [if_pos hc, if_neg (by omega : ¬(1 = 0)), scanPrefixes_zero ps]
    · rw [if_neg hc, if_neg (by omega : ¬(cnt + 1 = 0)), scanPrefixes_zero ps]

/-- Every key of the length-`n` builder has length `n`. -/
lemma length_of_mem_prefixesOfLen {words : List ByteStr} {minCount n : Nat}
    {p : ByteStr} (h : p ∈ prefixesOfLen words minCount n) : p.length = n := by
  unfold prefixesOfLen at h
  rw [scanWords_eq_scanPrefixes] at h
  rcases scanPrefixes_sub minCount _ _ _ _ p h with h1 | h1
  · exact absurd h1 (List.not_mem_nil p)
  · obtain ⟨w, -, hw⟩ := List.mem_filterMap.mp h1
    exact getPrefix_length hw

/-- The prefix stream of a strictly sorted word list is sorted: taking
the first `n` bytes is monotone for the byte-lexicographic order. -/
lemma pairwise_filterMap_getPrefix (n : Nat) :
    ∀ words : List ByteStr, words.Pairwise (fun a b => bytesLt a b = true) →
      (words.filterMap (fun w => getPrefix w n)).Pairwise
        (fun a b => bytesLe a b = true)
  | [], _ => List.Pairwise.nil
  | w :: ws, hsort => by
    rw [List.pairwise_cons] at hsort
    obtain ⟨hw, hsort'⟩ := hsort
    rw [List.filterMap_cons]
    cases hg : getPrefix w n with
    | none =>
      simp only []
      exact pairwise_filterMap_getPrefix n ws hsort'
    | some p =>
      simp only []
      rw [List.pairwise_cons]
      refine ⟨?_, pairwise_filterMap_getPrefix n ws hsort'⟩
      intro q hqmem
      obtain ⟨w2, hw2mem, hw2⟩ := List.mem_filterMap.mp hqmem
      obtain ⟨-, hp⟩ := getPrefix_eq_some.mp hg
      obtain ⟨-, hq2⟩ := getPrefix_eq_some.mp hw2
      rw [← hp, ← hq2]
      exact bytesLe_take n w w2 (hw w2 hw2mem)

/-- Membership in the final (union) prefix FST, as a per-length
existential. -/
lemma mem_prefixFstOf {words : List ByteStr} {minCount L : Nat} {p : ByteStr} :
    p ∈ prefixFstOf words minCount L ↔
      ∃ i, i < L ∧ p ∈ prefixesOfLen words minCount (i + 1) := by
  unfold prefixFstOf
  rw [List.mem_dedup, List.mem_flatten]
  constructor
  · rintro ⟨l, hl, hpl⟩
    obtain ⟨i, hi, rfl⟩ := List.mem_map.mp hl
    exact ⟨i, List.mem_range.mp hi, hpl⟩
  · rintro ⟨i, hi, hpl⟩
    exact ⟨_, List.mem_map.mpr ⟨i, List.mem_range.mpr hi, rfl⟩, hpl⟩

/-! ### The ok-result of `executeCore` -/

lemma executeCore_ok {minCount L : Nat} {s out : IndexState}
    (h : executeCore minCount L s = Except.ok out) :
    out = { s with
      wordPrefixDocids :=
        wordPrefixDocidsOf s.wordDocids (prefixFstOf s.wordsFst minCount L),
      wordsPrefixesFst := prefixFstOf s.wordsFst minCount L } := by
  simp only [executeCore] at h
  split at h
  · injection h with h
    rw [← h]
    rfl
  · exact Except.noConfusion h

lemma executeCore_ok_cond {minCount L : Nat} {s out : IndexState}
    (h : executeCore minCount L s = Except.ok out) :
    ((L == 0 || s.wordsFst.all utf8Valid)
      && (prefixFstOf s.wordsFst minCount L).all utf8Valid) = true := by
  simp only [executeCore] at h
  split at h
  · assumption
  · exact Except.noConfusion h

lemma executeCore_idem {minCount L : Nat} {s out : IndexState}
    (hok : executeCore minCount L s = Except.ok out) :
    executeCore minCount L out = Except.ok out := by
  have hc := executeCore_ok_cond hok
  have hout := executeCore_ok hok
  subst hout
  simp only [executeCore]
  rw [if_pos hc]
  rfl

/-! ### Lookup and union lemmas for the docids projection -/

lemma lookup_map_pair (g : ByteStr → Finset Nat) :
    ∀ (l : List ByteStr) (p : ByteStr), p ∈ l →
      List.lookup p (l.map (fun q => (q, g q))) = some (g p)
  | [], p, h => absurd h (List.not_mem_nil p)
  | q :: l, p, h => by
    rw [List.map_cons]
    by_cases hpq : p = q
    · subst hpq
      simp [List.lookup]
    · have hbeq : (p == q) = false := by simp [hpq]
      simp only [List.lookup, hbeq]
      exact lookup_map_pair g l p (by
        rcases List.mem_cons.mp h with h1 | h1
        · exact absurd h1 hpq
        · exact h1)

lemma mem_foldr_union {d : Nat} :
    ∀ l : List (Finset Nat), d ∈ l.foldr (· ∪ ·) ∅ ↔ ∃ t ∈ l, d ∈ t
  | [] => by simp
  | x :: l => by
    rw [List.foldr_cons]
    simp [Finset.mem_union, mem_foldr_union l]

/-- The merged sorter value for a prefix is exactly the union of the
docids of the matching `word_docids` rows. -/
lemma mem_docidsForPrefix {wd : List (ByteStr × Finset Nat)} {p : ByteStr} {d : Nat} :
    d ∈ docidsForPrefix wd p ↔
      ∃ w ds, (w, ds) ∈ wd ∧ bytesPrefix p w = true ∧ d ∈ ds := by
  unfold docidsForPrefix
  rw [mem_foldr_union]
  constructor
  · rintro ⟨t, ht, hd⟩
    obtain ⟨e, he, rfl⟩ := List.mem_map.mp ht
    obtain ⟨hew, hef⟩ := List.mem_filter.mp he
    exact ⟨e.1, e.2, hew, hef, hd⟩
  · rintro ⟨w, ds, hmem, hpre, hd⟩
    exact ⟨ds, List.mem_map.mpr ⟨(w, ds), List.mem_filter.mpr ⟨hmem, hpre⟩, rfl⟩, hd⟩

/-- A `DecidableEq` instance for `Except`, for evaluating the builder on
concrete inputs. -/
instance {ε α : Type} [DecidableEq ε] [DecidableEq α] : DecidableEq (Except ε α)
  | Except.ok a, Except.ok b =>
    if h : a = b then Decidable.isTrue (by rw [h])
    else Decidable.isFalse (fun hh => h (Except.ok.inj hh))
  | Except.error e, Except.error f =>
    if h : e = f then Decidable.isTrue (by rw [h])
    else Decidable.isFalse (fun hh => h (Except.error.inj hh))
  | Except.ok _, Except.error _ => Decidable.isFalse (fun hh => Except.noConfusion hh)
  | Except.error _, Except.ok _ => Decidable.isFalse (fun hh => Except.noConfusion hh)

/-! ### Claim theorems for the words-prefixes builder -/

/-- C6.  For every prefix length `n`, a word `w` is counted toward a
length-`n` prefix iff its first `n` bytes form a valid character-boundary
slice (conjunct 2: the extracted prefix stream is exactly the
first-`n`-byte slices of the boundary-valid words); a valid boundary at
`n` requires the word to be at least `n` bytes long (conjunct 3); a word
without such a slice is skipped and scanning continues with the next word
(conjuncts 1 and 4: the builder output over the words equals the prefix
scan over only the boundary-valid words). -/
theorem counted_iff_char_boundary (n minCount : Nat) (words : List ByteStr) :
    prefixesOfLen words minCount n
        = scanPrefixes minCount
            ((words.filter (fun w => isCharBoundary w n)).map (fun w => w.take n))
            [] 0 []
    ∧ words.filterMap (fun w => getPrefix w n)
        = (words.filter (fun w => isCharBoundary w n)).map (fun w => w.take n)
    ∧ (∀ w, isCharBoundary w n = true → n ≤ w.length)
    ∧ (∀ (w : ByteStr) (ws : List ByteStr) (cur : ByteStr) (cnt : Nat)
        (builder : List ByteStr), getPrefix w n = none →
          scanWords n minCount (w :: ws) cur cnt builder
            = scanWords n minCount ws cur cnt builder) := by
  refine ⟨?_, filterMap_getPrefix_eq n words,
    fun w hw => le_length_of_isCharBoundary hw,
    fun w ws cur cnt builder hnone =>
      scanWords_cons_none minCount ws cur cnt builder hnone⟩
  unfold prefixesOfLen
  rw [scanWords_eq_scanPrefixes, filterMap_getPrefix_eq n words]

/-- C2 (amended): in addition to the claim's hypotheses (clamped
threshold, clamped maximum length, sorted dictionary), the threshold
count `min_number_of_words` must be at least 1; the counterexample shows
the stated equivalence fails when it is 0.  Under that proviso, for every
`n ∈ 1..=L`, a prefix `p` of length `n` is in the final prefix FST iff at
least `min_number_of_words = floor(|W| * r)` words of `W` have `p` as
their first `n` bytes at a valid character boundary. -/
theorem prefix_fst_complete (r : ℚ) (L : Nat) (s out : IndexState)
    (hr : 0 ≤ r ∧ r ≤ 1) (hL : 1 ≤ L ∧ L ≤ 25)
    (hsort : s.wordsFst.Pairwise (fun a b => bytesLt a b = true))
    (hok : execute r L s = Except.ok out)
    (hmin : 1 ≤ minWordsCount s.wordsFst.length r)
    (n : Nat) (p : ByteStr) (hn : 1 ≤ n ∧ n ≤ L) (hp : p.length = n) :
    (p ∈ out.wordsPrefixesFst ↔
      minWordsCount s.wordsFst.length r ≤ numWordsWithPrefix s.wordsFst n p) := by
  unfold execute at hok
  have hout := executeCore_ok hok
  subst hout
  show p ∈ prefixFstOf s.wordsFst (minWordsCount s.wordsFst.length r) L ↔ _
  rw [mem_prefixFstOf]
  constructor
  · rintro ⟨i, hiL, hmem⟩
    have hlen := length_of_mem_prefixesOfLen hmem
    have hin : i + 1 = n := by omega
    rw [hin] at hmem
    unfold prefixesOfLen at hmem
    rw [scanWords_eq_scanPrefixes,
      scanPrefixes_mem _ _ (pairwise_filterMap_getPrefix n s.wordsFst hsort) p,
      countOcc_filterMap_getPrefix n p s.wordsFst] at hmem
    exact hmem.2
  · intro hcount
    refine ⟨n - 1, by omega, ?_⟩
    have hn1 : n - 1 + 1 = n := by omega
    rw [hn1]
    unfold prefixesOfLen
    rw [scanWords_eq_scanPrefixes,
      scanPrefixes_mem _ _ (pairwise_filterMap_getPrefix n s.wordsFst hsort) p,
      countOcc_filterMap_getPrefix n p s.wordsFst]
    exact ⟨hmin, hcount⟩

/-- C2 counterexample: dictionary `{"ab"}` with clamped threshold `1/2`
gives `min_number_of_words = floor(1 * 1/2) = 0`; at least 0 words carry
the length-1 prefix "a" (trivially), yet a successful run leaves the
final prefix FST empty, so the claimed equivalence is false at this
input. -/
theorem prefix_fst_complete_counterexample :
    (execute (1/2) 1 ⟨[[97, 98]], [([97, 98], {1})], [], []⟩).toOption.map
        IndexState.wordsPrefixesFst = some []
    ∧ ¬(([97] ∈ ([] : List ByteStr))
        ↔ minWordsCount 1 (1/2) ≤ numWordsWithPrefix [[97, 98]] 1 [97]) := by
  have hmin : minWordsCount 1 (1/2) = 0 := by simp [minWordsCount, Rat.floor_def']
  constructor
  · show (executeCore (minWordsCount 1 (1/2)) 1 _).toOption.map
        IndexState.wordsPrefixesFst = some []
    rw [hmin]
    decide
  · rw [hmin]
    intro h
    exact absurd (h.mpr (Nat.zero_le _)) (List.not_mem_nil [97])

/-- Witness for C2's amended theorem: dictionary `{"a", "ab"}`, threshold
1 (so `min_number_of_words = 2`), maximum length 1; both words carry the
length-1 prefix "a" at a valid boundary, and "a" is in the final FST. -/
theorem prefix_fst_complete_witness :
    ((0 : ℚ) ≤ 1 ∧ (1 : ℚ) ≤ 1)
    ∧ ((1 : Nat) ≤ 1 ∧ (1 : Nat) ≤ 25)
    ∧ ([[97], [97, 98]] : List ByteStr).Pairwise (fun a b => bytesLt a b = true)
    ∧ execute 1 1 ⟨[[97], [97, 98]], [([97], {0}), ([97, 98], {1})], [], []⟩
        = Except.ok ⟨[[97], [97, 98]], [([97], {0}), ([97, 98], {1})],
            [([97], {0, 1})], [[97]]⟩
    ∧ 1 ≤ minWordsCount 2 1
    ∧ ((1 : Nat) ≤ 1 ∧ (1 : Nat) ≤ 1)
    ∧ ([97] : ByteStr).length = 1
    ∧ (([97] : ByteStr) ∈ (⟨[[97], [97, 98]], [([97], {0}), ([97, 98], {1})],
          [([97], {0, 1})], [[97]]⟩ : IndexState).wordsPrefixesFst ↔
        minWordsCount 2 1 ≤ numWordsWithPrefix [[97], [97, 98]] 1 [97]) := by
  have hm2 : minWordsCount 2 1 = 2 := by simp [minWordsCount, Rat.floor_def']
  have hok : execute 1 1 ⟨[[97], [97, 98]], [([97], {0}), ([97, 98], {1})], [], []⟩
      = Except.ok ⟨[[97], [97, 98]], [([97], {0}), ([97, 98], {1})],
          [([97], {0, 1})], [[97]]⟩ := by
    show executeCore (minWordsCount 2 1) 1 _ = _
    rw [hm2]
    decide
  refine ⟨⟨by norm_num, le_refl 1⟩, ⟨le_refl 1, by omega⟩, by decide, hok,
    by rw [hm2]; omega, ⟨le_refl 1, le_refl 1⟩, rfl, ?_⟩
  exact prefix_fst_complete 1 1
    ⟨[[97], [97, 98]], [([97], {0}), ([97, 98], {1})], [], []⟩
    ⟨[[97], [97, 98]], [([97], {0}), ([97, 98], {1})], [([97], {0, 1})], [[97]]⟩
    ⟨by norm_num, le_refl 1⟩ ⟨le_refl 1, by omega⟩ (by decide) hok
    (by rw [show minWordsCount (List.length [[97], [97, 98]]) 1 = 2 from hm2]; omega)
    1 [97] ⟨le_refl 1, le_refl 1⟩ rfl

/-- C3.  For every prefix `p` of the final prefix FST of a successful
run, the stored `word_prefix_docids[p]` row exists and holds exactly the
union of `word_docids[w]` over the dictionary words `w` that start
byte-wise with `p`.  The dictionary and the key set of `word_docids`
coincide in a well-formed index (`words_fst` is built from the
`word_docids` keys); that invariant enters as the hypothesis `hkeys`. -/
theorem prefix_docids_exact (r : ℚ) (L : Nat) (s out : IndexState)
    (hkeys : s.wordsFst = s.wordDocids.map Prod.fst)
    (hok : execute r L s = Except.ok out)
    (p : ByteStr) (hp : p ∈ out.wordsPrefixesFst) :
    ∃ docs, List.lookup p out.wordPrefixDocids = some docs
      ∧ ∀ d, (d ∈ docs ↔
          ∃ w ds, (w, ds) ∈ s.wordDocids ∧ bytesPrefix p w = true ∧ d ∈ ds) := by
  unfold execute at hok
  have hout := executeCore_ok hok
  subst hout
  have hp' : p ∈ prefixFstOf s.wordsFst (minWordsCount s.wordsFst.length r) L := hp
  obtain ⟨i, hiL, hmem⟩ := mem_prefixFstOf.mp hp'
  unfold prefixesOfLen at hmem
  rw [scanWords_eq_scanPrefixes] at hmem
  rcases scanPrefixes_sub _ _ _ _ _ p hmem with hin | hin
  · exact absurd hin (List.not_mem_nil p)
  · obtain ⟨w, hwmem, hw⟩ := List.mem_filterMap.mp hin
    have hpre := bytesPrefix_of_getPrefix hw
    rw [hkeys] at hwmem
    obtain ⟨e, hemem, heq⟩ := List.mem_map.mp hwmem
    have hany : (s.wordDocids.any (fun e => bytesPrefix p e.1)) = true :=
      List.any_eq_true.mpr ⟨e, hemem, by rw [heq]; exact hpre⟩
    have hfilt : p ∈ (prefixFstOf s.wordsFst
        (minWordsCount s.wordsFst.length r) L).filter
          (fun q => s.wordDocids.any (fun e => bytesPrefix q e.1)) :=
      List.mem_filter.mpr ⟨hp', hany⟩
    refine ⟨docidsForPrefix s.wordDocids p, ?_, fun d => mem_docidsForPrefix⟩
    show List.lookup p (wordPrefixDocidsOf s.wordDocids
      (prefixFstOf s.wordsFst (minWordsCount s.wordsFst.length r) L)) = _
    unfold wordPrefixDocidsOf
    exact lookup_map_pair _ _ p hfilt

/-- Witness for C3: dictionary `{"a", "ab"}`, threshold 1, maximum length
1; `word_prefix_docids["a"]` is `word_docids["a"] ∪ word_docids["ab"]
= {0, 1}`. -/
theorem prefix_docids_exact_witness :
    (⟨[[97], [97, 98]], [([97], {0}), ([97, 98], {1})], [], []⟩
        : IndexState).wordsFst
      = (⟨[[97], [97, 98]], [([97], {0}), ([97, 98], {1})], [], []⟩
          : IndexState).wordDocids.map Prod.fst
    ∧ ([97] : ByteStr) ∈ (⟨[[97], [97, 98]], [([97], {0}), ([97, 98], {1})],
        [([97], {0, 1})], [[97]]⟩ : IndexState).wordsPrefixesFst
    ∧ ∃ docs,
        List.lookup [97] (⟨[[97], [97, 98]], [([97], {0}), ([97, 98], {1})],
          [([97], {0, 1})], [[97]]⟩ : IndexState).wordPrefixDocids = some docs
        ∧ ∀ d, (d ∈ docs ↔ ∃ w ds,
            (w, ds) ∈ (⟨[[97], [97, 98]], [([97], {0}), ([97, 98], {1})],
              [], []⟩ : IndexState).wordDocids
            ∧ bytesPrefix [97] w = true ∧ d ∈ ds) := by
  have hok : execute 1 1 ⟨[[97], [97, 98]], [([97], {0}), ([97, 98], {1})], [], []⟩
      = Except.ok ⟨[[97], [97, 98]], [([97], {0}), ([97, 98], {1})],
          [([97], {0, 1})], [[97]]⟩ := by
    show executeCore (minWordsCount 2 1) 1 _ = _
    rw [show minWordsCount 2 1 = 2 from by simp [minWordsCount, Rat.floor_def']]
    decide
  exact ⟨rfl, by decide,
    prefix_docids_exact 1 1
      ⟨[[97], [97, 98]], [([97], {0}), ([97, 98], {1})], [], []⟩
      ⟨[[97], [97, 98]], [([97], {0}), ([97, 98], {1})], [([97], {0, 1})], [[97]]⟩
      rfl hok [97] (by decide)⟩

/-- C5 counterexample: with dictionary `{"a"}` and threshold 0 (so
`min_number_of_words = 0`), the word "a" yields the valid length-1 prefix
"a" on its first occurrence, yet the builder inserts nothing (the check
`current_prefix_count == min_number_of_words` compares a count that is
already at least 1 against 0): the final prefix FST is empty rather than
containing every prefix. -/
theorem all_prefixes_counterexample :
    minWordsCount 1 0 = 0
    ∧ getPrefix [97] 1 = some [97]
    ∧ prefixesOfLen [[97]] 0 1 = []
    ∧ (execute 0 1 ⟨[[97]], [([97], {0})], [], []⟩).toOption.map
        IndexState.wordsPrefixesFst = some [] := by
  have hmin : minWordsCount 1 0 = 0 := by simp [minWordsCount, Rat.floor_def']
  refine ⟨hmin, by decide, by decide, ?_⟩
  show (executeCore (minWordsCount 1 0) 1 _).toOption.map
      IndexState.wordsPrefixesFst = some []
  rw [hmin]
  decide

/-- C5 (amended): when the threshold gives `min_number_of_words = 0` (in
particular when `r = 0`), no prefix is ever inserted — the insertion
check `current_prefix_count == min_number_of_words` cannot fire because
the count is at least 1 whenever it is checked — so a successful run
leaves an empty prefix FST and an empty `word_prefix_docids` table (not
the degenerate "all prefixes" behaviour the claim describes). -/
theorem threshold_zero_empty (r : ℚ) (L : Nat) (s out : IndexState)
    (hmin : minWordsCount s.wordsFst.length r = 0)
    (hok : execute r L s = Except.ok out) :
    out.wordsPrefixesFst = [] ∧ out.wordPrefixDocids = [] := by
  unfold execute at hok
  rw [hmin] at hok
  have hout := executeCore_ok hok
  subst hout
  have hfst : prefixFstOf s.wordsFst 0 L = [] := by
    unfold prefixFstOf
    have hall : ∀ l ∈ (List.range L).map
        (fun i => prefixesOfLen s.wordsFst 0 (i + 1)), l = [] := by
      intro l hl
      obtain ⟨i, -, rfl⟩ := List.mem_map.mp hl
      unfold prefixesOfLen
      rw [scanWords_eq_scanPrefixes, scanPrefixes_zero]
      rfl
    rw [List.flatten_eq_nil_iff.mpr hall]
    rfl
  show prefixFstOf s.wordsFst 0 L = [] ∧
    wordPrefixDocidsOf s.wordDocids (prefixFstOf s.wordsFst 0 L) = []
  rw [hfst]
  exact ⟨rfl, rfl⟩

/-- Witness for C5's amended theorem at dictionary `{"a"}`, threshold 0,
maximum length 1. -/
theorem threshold_zero_empty_witness :
    minWordsCount 1 0 = 0
    ∧ ((⟨[[97]], [([97], {0})], [], []⟩ : IndexState).wordsPrefixesFst = []
        ∧ (⟨[[97]], [([97], {0})], [], []⟩ : IndexState).wordPrefixDocids = []) := by
  have hmin : minWordsCount 1 0 = 0 := by simp [minWordsCount, Rat.floor_def']
  refine ⟨hmin, ?_⟩
  refine threshold_zero_empty 0 1 ⟨[[97]], [([97], {0})], [], []⟩
    ⟨[[97]], [([97], {0})], [], []⟩ hmin ?_
  show executeCore (minWordsCount 1 0) 1 _ = _
  rw [hmin]
  decide

/-- C7.  Idempotence: running the builder again on the state a successful
run produced, with the same threshold and maximum length (and hence the
same `words_fst` and `word_docids`, which the builder does not modify),
reproduces the identical state — in particular byte-identical
`word_prefix_docids` and `words_prefixes_fst`. -/
theorem prefix_builder_idempotent (r : ℚ) (L : Nat) (s out : IndexState)
    (hok : execute r L s = Except.ok out) :
    execute r L out = Except.ok out := by
  unfold execute at hok ⊢
  have hfst : out.wordsFst = s.wordsFst := by
    rw [executeCore_ok hok]
  rw [hfst]
  exact executeCore_idem hok

/-- Witness for C7 at dictionary `{"a", "ab"}`, threshold 1, maximum
length 1. -/
theorem prefix_builder_idempotent_witness :
    execute 1 1 ⟨[[97], [97, 98]], [([97], {0}), ([97, 98], {1})], [], []⟩
        = Except.ok ⟨[[97], [97, 98]], [([97], {0}), ([97, 98], {1})],
            [([97], {0, 1})], [[97]]⟩
    ∧ execute 1 1 ⟨[[97], [97, 98]], [([97], {0}), ([97, 98], {1})],
          [([97], {0, 1})], [[97]]⟩
        = Except.ok ⟨[[97], [97, 98]], [([97], {0}), ([97, 98], {1})],
            [([97], {0, 1})], [[97]]⟩ := by
  have hok : execute 1 1 ⟨[[97], [97, 98]], [([97], {0}), ([97, 98], {1})], [], []⟩
      = Except.ok ⟨[[97], [97, 98]], [([97], {0}), ([97, 98], {1})],
          [([97], {0, 1})], [[97]]⟩ := by
    show executeCore (minWordsCount 2 1) 1 _ = _
    rw [show minWordsCount 2 1 = 2 from by simp [minWordsCount, Rat.floor_def']]
    decide
  exact ⟨hok, prefix_builder_idempotent 1 1 _ _ hok⟩

/-- C10.  The builder clears `word_prefix_docids` before writing and
reads only `words_fst` and `word_docids`: two states that agree on those
two inputs produce identical results under `execute` (same
`word_prefix_docids`, same `words_prefixes_fst`, same error behaviour),
whatever `word_prefix_docids` and `words_prefixes_fst` contained
beforehand. -/
theorem output_independent_of_prior (r : ℚ) (L : Nat) (s t : IndexState)
    (h1 : s.wordsFst = t.wordsFst) (h2 : s.wordDocids = t.wordDocids) :
    execute r L s = execute r L t := by
  simp only [execute, executeCore, h1, h2]

/-- Witness for C10: two states sharing `words_fst` and `word_docids` but
with different prior `word_prefix_docids` and `words_prefixes_fst`. -/
theorem output_independent_of_prior_witness :
    (⟨[[97]], [([97], {0})], [([98], {5})], [[99]]⟩ : IndexState).wordsFst
        = (⟨[[97]], [([97], {0})], [], []⟩ : IndexState).wordsFst
    ∧ (⟨[[97]], [([97], {0})], [([98], {5})], [[99]]⟩ : IndexState).wordDocids
        = (⟨[[97]], [([97], {0})], [], []⟩ : IndexState).wordDocids
    ∧ execute 1 1 ⟨[[97]], [([97], {0})], [([98], {5})], [[99]]⟩
        = execute 1 1 ⟨[[97]], [([97], {0})], [], []⟩ :=
  ⟨rfl, rfl, output_independent_of_prior 1 1
    ⟨[[97]], [([97], {0})], [([98], {5})], [[99]]⟩
    ⟨[[97]], [([97], {0})], [], []⟩ rfl rfl⟩

end MeiliVerif
